import Mathlib

/-!
# Verification of `rebrand.py`

A shallow embedding of the rebranding script: text is `List Char`, file
bytes are `List Nat`, the directory tree is a `List FileEntry`.  Python's
`str.replace` and `re.sub` (with an escaped-literal pattern) both perform
leftmost, non-overlapping literal replacement, embedded here as
`replaceGo` / `replaceCore`; `re.IGNORECASE` on the all-ASCII pattern
`ghl\.agency\.ai` is embedded as comparison after `asciiLower`.
-/

namespace Rebrand

/-- ASCII lowercasing; models how Python's `re.IGNORECASE` matches the
all-ASCII literal pattern of the script. -/
def asciiLower (c : Char) : Char :=
  if 65 ≤ c.toNat ∧ c.toNat ≤ 90 then Char.ofNat (c.toNat + 32) else c

/-- Leftmost non-overlapping replacement of the pattern `p0 :: pt` by `r`,
matching up to the character mapping `f` (`id` for `str.replace`,
`asciiLower` for the case-insensitive `re.sub`).  The `Nat` argument is
the number of already-consumed pattern characters still to be skipped, so
that the recursion is structural on the text. -/
def replaceGo (f : Char → Char) (p0 : Char) (pt r : List Char) :
    List Char → Nat → List Char
  | [], _ => []
  | _ :: cs, Nat.succ n => replaceGo f p0 pt r cs n
  | c :: cs, 0 =>
    if ((c :: cs).take (pt.length + 1)).map f = p0 :: pt then
      r ++ replaceGo f p0 pt r cs pt.length
    else
      c :: replaceGo f p0 pt r cs 0

/-- Replacement of the (nonempty) pattern `p0 :: pt` by `r` in `s`. -/
def replaceCore (f : Char → Char) (p0 : Char) (pt r s : List Char) : List Char :=
  replaceGo f p0 pt r s 0

/-- Python `s.replace(p, r)` (all occurrences, leftmost, non-overlapping).
The script only uses nonempty patterns, so the `[]` case is arbitrary. -/
def replaceAll (p r s : List Char) : List Char :=
  match p with
  | [] => s
  | p0 :: pt => replaceCore id p0 pt r s

/-- Python `re.sub(p, r, s, flags=re.IGNORECASE)` for an escaped-literal
ASCII pattern `p` (given lowercase). -/
def replaceAllCI (p r s : List Char) : List Char :=
  match p with
  | [] => s
  | p0 :: pt => replaceCore asciiLower p0 pt r s

/-- The pattern of `content.replace('GHL Agency AI', 'Bottleneck Bots')`. -/
def brandPat : List Char := "GHL Agency AI".toList

/-- The pattern of `content.replace('ghl-agency-ai', 'bottleneck-bots')`. -/
def slugPat : List Char := "ghl-agency-ai".toList

/-- The pattern of `re.sub(r'ghl\.agency\.ai', ..., flags=re.IGNORECASE)`. -/
def domainPat : List Char := "ghl.agency.ai".toList

/-- The in-memory content transformation of `rebrand_file`
(source lines 32-39): brand literal, then slug literal, then the
case-insensitive domain pattern, applied in sequence. -/
def rebrand_content (content : List Char) : List Char :=
  let c1 := replaceAll brandPat "Bottleneck Bots".toList content
  let c2 := replaceAll slugPat "bottleneck-bots".toList c1
  replaceAllCI domainPat "bottleneckbots.com".toList c2

theorem replaceGo_skip (f : Char → Char) (p0 : Char) (pt r : List Char) :
    ∀ (s : List Char) (n : Nat),
      replaceGo f p0 pt r s n = replaceCore f p0 pt r (s.drop n) := by
  intro s
  induction s with
  | nil => intro n; cases n <;> rfl
  | cons c cs ih =>
    intro n
    cases n with
    | zero => rfl
    | succ n => simpa [replaceGo] using ih n

theorem replaceCore_nil (f : Char → Char) (p0 : Char) (pt r : List Char) :
    replaceCore f p0 pt r [] = [] := rfl

theorem replaceCore_cons_match (f : Char → Char) (p0 : Char) (pt r : List Char)
    (c : Char) (cs : List Char)
    (h : ((c :: cs).take (pt.length + 1)).map f = p0 :: pt) :
    replaceCore f p0 pt r (c :: cs) =
      r ++ replaceCore f p0 pt r (cs.drop pt.length) := by
  rw [replaceCore]
  rw [show replaceGo f p0 pt r (c :: cs) 0 =
      (if ((c :: cs).take (pt.length + 1)).map f = p0 :: pt then
        r ++ replaceGo f p0 pt r cs pt.length
      else c :: replaceGo f p0 pt r cs 0) from rfl]
  rw [if_pos h, replaceGo_skip]

theorem replaceCore_cons_nomatch (f : Char → Char) (p0 : Char) (pt r : List Char)
    (c : Char) (cs : List Char)
    (h : ¬ ((c :: cs).take (pt.length + 1)).map f = p0 :: pt) :
    replaceCore f p0 pt r (c :: cs) = c :: replaceCore f p0 pt r cs := by
  rw [replaceCore]
  rw [show replaceGo f p0 pt r (c :: cs) 0 =
      (if ((c :: cs).take (pt.length + 1)).map f = p0 :: pt then
        r ++ replaceGo f p0 pt r cs pt.length
      else c :: replaceGo f p0 pt r cs 0) from rfl]
  rw [if_neg h]
  rfl

theorem pre_append_cases {α : Type} {p xs ys : List α} (h : p <+: xs ++ ys) :
    p <+: xs ∨ ∃ w, p = xs ++ w ∧ w <+: ys := by
  induction xs generalizing p with
  | nil => exact Or.inr ⟨p, rfl, h⟩
  | cons x xs ih =>
    cases p with
    | nil => exact Or.inl ⟨x :: xs, rfl⟩
    | cons a p' =>
      obtain ⟨t, ht⟩ := h
      simp only [List.cons_append] at ht
      injection ht with h1 h2
      subst h1
      rcases ih ⟨t, h2⟩ with h3 | ⟨w, hw1, hw2⟩
      · obtain ⟨u, hu⟩ := h3
        exact Or.inl ⟨u, by simp [hu]⟩
      · exact Or.inr ⟨w, by simp [hw1], hw2⟩

theorem sub_cons_cases {α : Type} {p l : List α} {a : α} (h : p <:+: a :: l) :
    p <+: a :: l ∨ p <:+: l := by
  obtain ⟨s, t, hst⟩ := h
  cases s with
  | nil => exact Or.inl ⟨t, by simpa using hst⟩
  | cons b s' =>
    simp only [List.cons_append] at hst
    injection hst with _ h2
    exact Or.inr ⟨s', t, h2⟩

theorem sub_append_cases {α : Type} {p xs ys : List α} (h : p <:+: xs ++ ys) :
    p <:+: xs ∨ p <:+: ys ∨
      ∃ u v, p = u ++ v ∧ u ≠ [] ∧ v ≠ [] ∧ u <:+ xs ∧ v <+: ys := by
  induction xs generalizing p with
  | nil => exact Or.inr (Or.inl (by simpa using h))
  | cons x xs ih =>
    rcases sub_cons_cases (by simpa using h) with hp | hp
    · cases p with
      | nil => exact Or.inl ⟨[], x :: xs, rfl⟩
      | cons a p' =>
        obtain ⟨t, ht⟩ := hp
        simp only [List.cons_append] at ht
        injection ht with h1 h2
        subst h1
        rcases pre_append_cases ⟨t, h2⟩ with h3 | ⟨w, hw1, hw2⟩
        · obtain ⟨u, hu⟩ := h3
          exact Or.inl ⟨[], u, by simp [hu]⟩
        · cases w with
          | nil =>
            refine Or.inl ⟨[], [], ?_⟩
            simp [hw1]
          | cons w0 w' =>
            refine Or.inr (Or.inr ⟨a :: xs, w0 :: w', ?_, by simp, by simp,
              ⟨[], rfl⟩, hw2⟩)
            simp [hw1]
    · rcases ih hp with h1 | h1 | ⟨u, v, h1, h2, h3, h4, h5⟩
      · obtain ⟨s, t, hst⟩ := h1
        exact Or.inl ⟨x :: s, t, by simp [hst]⟩
      · exact Or.inr (Or.inl h1)
      · obtain ⟨w, hw⟩ := h4
        exact Or.inr (Or.inr ⟨u, v, h1, h2, h3, ⟨x :: w, by simp [hw]⟩, h5⟩)

theorem sub_of_sub_sfx {α : Type} {q l' l : List α} (h1 : q <:+: l')
    (h2 : l' <:+ l) : q <:+: l :=
  h1.trans h2.isInfix

theorem pull_through (f g : Char → Char) (p0 : Char) (pt : List Char)
    (r0 : Char) (rt : List Char) :
    ∀ (s t : List Char), g r0 ∉ t →
      t <+: (replaceCore f p0 pt (r0 :: rt) s).map g → t <+: s.map g := by
  intro s
  induction s with
  | nil =>
    intro t ht h
    simpa [replaceCore_nil] using h
  | cons c cs ih =>
    intro t ht h
    by_cases hm : ((c :: cs).take (pt.length + 1)).map f = p0 :: pt
    · rw [replaceCore_cons_match f p0 pt (r0 :: rt) c cs hm] at h
      cases t with
      | nil => exact ⟨(c :: cs).map g, rfl⟩
      | cons t0 t' =>
        exfalso
        obtain ⟨u, hu⟩ := h
        simp only [List.map_append, List.map_cons, List.cons_append] at hu
        injection hu with h1 _
        exact ht (by rw [← h1]; exact List.mem_cons_self _ _)
    · rw [replaceCore_cons_nomatch f p0 pt (r0 :: rt) c cs hm] at h
      cases t with
      | nil => exact ⟨(c :: cs).map g, rfl⟩
      | cons t0 t' =>
        obtain ⟨u, hu⟩ := h
        simp only [List.map_cons, List.cons_append] at hu
        injection hu with h1 h2
        have ht' : g r0 ∉ t' := fun hmem => ht (List.mem_cons_of_mem _ hmem)
        obtain ⟨w, hw⟩ := ih t' ht' ⟨u, h2⟩
        exact ⟨w, by simp [h1, hw]⟩

theorem no_occur (f : Char → Char) (p0 : Char) (pt : List Char)
    (r0 : Char) (rt : List Char)
    (hp0 : p0 ∉ (r0 :: rt).map f) (hr0 : f r0 ∉ p0 :: pt) :
    ∀ s : List Char, ¬ (p0 :: pt) <:+: (replaceCore f p0 pt (r0 :: rt) s).map f := by
  have hnil : ¬ (p0 :: pt) <:+: (replaceCore f p0 pt (r0 :: rt) []).map f := by
    rw [replaceCore_nil]
    intro h
    obtain ⟨a, b, hab⟩ := h
    simp at hab
  have key : ∀ (N : Nat) (s : List Char), s.length ≤ N →
      ¬ (p0 :: pt) <:+: (replaceCore f p0 pt (r0 :: rt) s).map f := by
    intro N
    induction N with
    | zero =>
      intro s hs
      have : s = [] := List.eq_nil_of_length_eq_zero (Nat.le_zero.mp hs)
      rw [this]
      exact hnil
    | succ N ih =>
      intro s hs
      cases s with
      | nil => exact hnil
      | cons c cs =>
        have hcs : cs.length ≤ N := Nat.succ_le_succ_iff.mp hs
        by_cases hm : ((c :: cs).take (pt.length + 1)).map f = p0 :: pt
        · rw [replaceCore_cons_match f p0 pt (r0 :: rt) c cs hm]
          intro h
          rw [List.map_append] at h
          rcases sub_append_cases h with h1 | h1 | ⟨u, v, he, hu, hv, hsfx, hpre⟩
          · exact hp0 (h1.subset (List.mem_cons_self _ _))
          · have hlen : (cs.drop pt.length).length ≤ N := by
              rw [List.length_drop]; omega
            exact ih (cs.drop pt.length) hlen h1
          · cases u with
            | nil => exact hu rfl
            | cons u0 u' =>
              have h1 : p0 = u0 := by
                simp only [List.cons_append] at he
                injection he with hx _
              exact hp0 (by rw [h1]; exact hsfx.subset (List.mem_cons_self _ _))
        · rw [replaceCore_cons_nomatch f p0 pt (r0 :: rt) c cs hm]
          intro h
          rw [List.map_cons] at h
          rcases sub_cons_cases h with h1 | h1
          · obtain ⟨u, hu⟩ := h1
            simp only [List.cons_append] at hu
            injection hu with hx h2
            have hr0' : f r0 ∉ pt := fun hh => hr0 (List.mem_cons_of_mem _ hh)
            have hpt2 : pt <+: cs.map f :=
              pull_through f f p0 pt r0 rt cs pt hr0' ⟨u, h2⟩
            apply hm
            have hpre2 : (p0 :: pt) <+: (c :: cs).map f := by
              obtain ⟨w, hw⟩ := hpt2
              exact ⟨w, by simp [hx, hw]⟩
            have h3 := List.prefix_iff_eq_take.mp hpre2
            rw [List.map_take]
            simpa using h3.symm
          · exact ih cs hcs h1
  exact fun s => key s.length s le_rfl

theorem keep_absent (f g : Char → Char) (q0 : Char) (qt : List Char)
    (p0 : Char) (pt : List Char) (r0 : Char) (rt : List Char)
    (hq0 : q0 ∉ (r0 :: rt).map g) (hr0 : g r0 ∉ q0 :: qt) :
    ∀ s : List Char, ¬ (q0 :: qt) <:+: s.map g →
      ¬ (q0 :: qt) <:+: (replaceCore f p0 pt (r0 :: rt) s).map g := by
  have key : ∀ (N : Nat) (s : List Char), s.length ≤ N →
      ¬ (q0 :: qt) <:+: s.map g →
      ¬ (q0 :: qt) <:+: (replaceCore f p0 pt (r0 :: rt) s).map g := by
    intro N
    induction N with
    | zero =>
      intro s hs habs
      have : s = [] := List.eq_nil_of_length_eq_zero (Nat.le_zero.mp hs)
      rw [this, replaceCore_nil]
      simp
    | succ N ih =>
      intro s hs habs
      cases s with
      | nil =>
        rw [replaceCore_nil]
        simp
      | cons c cs =>
        have hcs : cs.length ≤ N := Nat.succ_le_succ_iff.mp hs
        by_cases hm : ((c :: cs).take (pt.length + 1)).map f = p0 :: pt
        · rw [replaceCore_cons_match f p0 pt (r0 :: rt) c cs hm]
          intro h
          rw [List.map_append] at h
          rcases sub_append_cases h with h1 | h1 | ⟨u, v, he, hu, hv, hsfx, hpre⟩
          · exact hq0 (h1.subset (List.mem_cons_self _ _))
          · have hlen : (cs.drop pt.length).length ≤ N := by
              rw [List.length_drop]; omega
            have habs' : ¬ (q0 :: qt) <:+: (cs.drop pt.length).map g := by
              intro hh
              apply habs
              have hsfx2 : (cs.drop pt.length).map g <:+ (c :: cs).map g := by
                rw [List.map_drop]
                exact (List.drop_suffix _ _).trans ⟨[g c], rfl⟩
              exact sub_of_sub_sfx hh hsfx2
            exact ih (cs.drop pt.length) hlen habs' h1
          · cases u with
            | nil => exact hu rfl
            | cons u0 u' =>
              have h1 : q0 = u0 := by
                simp only [List.cons_append] at he
                injection he with hx _
              exact hq0 (by rw [h1]; exact hsfx.subset (List.mem_cons_self _ _))
        · rw [replaceCore_cons_nomatch f p0 pt (r0 :: rt) c cs hm]
          intro h
          rw [List.map_cons] at h
          rcases sub_cons_cases h with h1 | h1
          · obtain ⟨u, hu⟩ := h1
            simp only [List.cons_append] at hu
            injection hu with hx h2
            have hr0' : g r0 ∉ qt := fun hh => hr0 (List.mem_cons_of_mem _ hh)
            have hqt2 : qt <+: cs.map g :=
              pull_through f g p0 pt r0 rt cs qt hr0' ⟨u, h2⟩
            apply habs
            have hpre2 : (q0 :: qt) <+: (c :: cs).map g := by
              obtain ⟨w, hw⟩ := hqt2
              exact ⟨w, by simp [hx, hw]⟩
            exact hpre2.isInfix
          · have habs' : ¬ (q0 :: qt) <:+: cs.map g := by
              intro hh
              exact habs (sub_of_sub_sfx hh ⟨[g c], rfl⟩)
            exact ih cs hcs habs' h1
  exact fun s => key s.length s le_rfl

theorem id_of_absent (f : Char → Char) (p0 : Char) (pt r : List Char) :
    ∀ s : List Char, ¬ (p0 :: pt) <:+: s.map f →
      replaceCore f p0 pt r s = s := by
  intro s
  induction s with
  | nil => intro _; rfl
  | cons c cs ih =>
    intro h
    by_cases hm : ((c :: cs).take (pt.length + 1)).map f = p0 :: pt
    · exfalso
      apply h
      have h2 : ((c :: cs).take (pt.length + 1)).map f <+: (c :: cs).map f := by
        rw [List.map_take]
        exact List.take_prefix _ _
      rw [hm] at h2
      exact h2.isInfix
    · rw [replaceCore_cons_nomatch f p0 pt r c cs hm]
      have h' : ¬ (p0 :: pt) <:+: cs.map f := fun hh =>
        h (sub_of_sub_sfx hh ⟨[f c], rfl⟩)
      rw [ih h']

/-- No literal `GHL Agency AI`, no literal `ghl-agency-ai`, and no
case-insensitive `ghl.agency.ai` occurs in `c`. -/
def noTargets (c : List Char) : Prop :=
  ¬ brandPat <:+: c ∧ ¬ slugPat <:+: c ∧ ¬ domainPat <:+: c.map asciiLower

theorem brand_cons : brandPat = 'G' :: "HL Agency AI".toList := rfl

theorem slug_cons : slugPat = 'g' :: "hl-agency-ai".toList := rfl

theorem domain_cons : domainPat = 'g' :: "hl.agency.ai".toList := rfl

theorem r1_eq (c : List Char) :
    replaceAll brandPat "Bottleneck Bots".toList c =
      replaceCore id 'G' "HL Agency AI".toList
        ('B' :: "ottleneck Bots".toList) c := rfl

theorem r2_eq (c : List Char) :
    replaceAll slugPat "bottleneck-bots".toList c =
      replaceCore id 'g' "hl-agency-ai".toList
        ('b' :: "ottleneck-bots".toList) c := rfl

theorem r3_eq (c : List Char) :
    replaceAllCI domainPat "bottleneckbots.com".toList c =
      replaceCore asciiLower 'g' "hl.agency.ai".toList
        ('b' :: "ottleneckbots.com".toList) c := rfl

theorem r1_no_brand (c : List Char) :
    ¬ brandPat <:+: replaceAll brandPat "Bottleneck Bots".toList c := by
  have h := no_occur id 'G' "HL Agency AI".toList 'B' "ottleneck Bots".toList
    (by decide) (by decide) c
  rw [List.map_id] at h
  rw [r1_eq, brand_cons]
  exact h

theorem r2_no_slug (c : List Char) :
    ¬ slugPat <:+: replaceAll slugPat "bottleneck-bots".toList c := by
  have h := no_occur id 'g' "hl-agency-ai".toList 'b' "ottleneck-bots".toList
    (by decide) (by decide) c
  rw [List.map_id] at h
  rw [r2_eq, slug_cons]
  exact h

theorem r3_no_domain (c : List Char) :
    ¬ domainPat <:+:
      (replaceAllCI domainPat "bottleneckbots.com".toList c).map asciiLower := by
  have h := no_occur asciiLower 'g' "hl.agency.ai".toList 'b'
    "ottleneckbots.com".toList (by decide) (by decide) c
  rw [r3_eq, domain_cons]
  exact h

theorem r2_keeps_no_brand (c : List Char) (h : ¬ brandPat <:+: c) :
    ¬ brandPat <:+: replaceAll slugPat "bottleneck-bots".toList c := by
  have h2 := keep_absent id id 'G' "HL Agency AI".toList 'g'
    "hl-agency-ai".toList 'b' "ottleneck-bots".toList
    (by decide) (by decide) c
  rw [List.map_id, List.map_id] at h2
  rw [r2_eq, brand_cons]
  exact h2 (by rw [← brand_cons]; exact h)

theorem r3_keeps_no_brand (c : List Char) (h : ¬ brandPat <:+: c) :
    ¬ brandPat <:+: replaceAllCI domainPat "bottleneckbots.com".toList c := by
  have h2 := keep_absent asciiLower id 'G' "HL Agency AI".toList 'g'
    "hl.agency.ai".toList 'b' "ottleneckbots.com".toList
    (by decide) (by decide) c
  rw [List.map_id, List.map_id] at h2
  rw [r3_eq, brand_cons]
  exact h2 (by rw [← brand_cons]; exact h)

theorem r3_keeps_no_slug (c : List Char) (h : ¬ slugPat <:+: c) :
    ¬ slugPat <:+: replaceAllCI domainPat "bottleneckbots.com".toList c := by
  have h2 := keep_absent asciiLower id 'g' "hl-agency-ai".toList 'g'
    "hl.agency.ai".toList 'b' "ottleneckbots.com".toList
    (by decide) (by decide) c
  rw [List.map_id, List.map_id] at h2
  rw [r3_eq, slug_cons]
  exact h2 (by rw [← slug_cons]; exact h)

/-- After the three replacement rules of `rebrand_file`, none of the three
target strings occurs in the content any more. -/
theorem rebrand_content_clean (c : List Char) : noTargets (rebrand_content c) := by
  refine ⟨?_, ?_, ?_⟩
  · exact r3_keeps_no_brand _ (r2_keeps_no_brand _ (r1_no_brand c))
  · exact r3_keeps_no_slug _ (r2_no_slug _)
  · exact r3_no_domain _

/-- Content without any target string is a fixed point of the
transformation. -/
theorem rebrand_fixed (c : List Char) (h : noTargets c) :
    rebrand_content c = c := by
  obtain ⟨h1, h2, h3⟩ := h
  have e1 : replaceAll brandPat "Bottleneck Bots".toList c = c := by
    rw [r1_eq]
    exact id_of_absent id 'G' "HL Agency AI".toList _ c
      (by rw [List.map_id, ← brand_cons]; exact h1)
  have e2 : replaceAll slugPat "bottleneck-bots".toList c = c := by
    rw [r2_eq]
    exact id_of_absent id 'g' "hl-agency-ai".toList _ c
      (by rw [List.map_id, ← slug_cons]; exact h2)
  have e3 : replaceAllCI domainPat "bottleneckbots.com".toList c = c := by
    rw [r3_eq]
    exact id_of_absent asciiLower 'g' "hl.agency.ai".toList _ c
      (by rw [← domain_cons]; exact h3)
  show replaceAllCI domainPat "bottleneckbots.com".toList
    (replaceAll slugPat "bottleneck-bots".toList
      (replaceAll brandPat "Bottleneck Bots".toList c)) = c
  rw [e1, e2, e3]

/-- The content transformation is idempotent. -/
theorem rebrand_idem (c : List Char) :
    rebrand_content (rebrand_content c) = rebrand_content c :=
  rebrand_fixed _ (rebrand_content_clean c)

/-- `p.isPrefixOf s`, spelled out. -/
def startsWithB : List Char → List Char → Bool
  | [], _ => true
  | _ :: _, [] => false
  | p :: ps, c :: cs => p == c && startsWithB ps cs

/-- Python's `pattern in str(path)`: substring containment. -/
def containsSub (p : List Char) : List Char → Bool
  | [] => p.isEmpty
  | c :: cs => startsWithB p (c :: cs) || containsSub p cs

/-- Python's `str(path).endswith(ext)`; `Path.rglob(f'*{ext}')` matches
exactly the paths whose name ends with `ext` (none of the script's
extensions contains a path separator). -/
def endsWithB (s p : List Char) : Bool :=
  startsWithB p (s.drop (s.length - p.length))

theorem startsWithB_iff (p : List Char) :
    ∀ s : List Char, startsWithB p s = true ↔ p <+: s := by
  induction p with
  | nil =>
    intro s
    simp [startsWithB]
  | cons p0 pt ih =>
    intro s
    cases s with
    | nil =>
      simp [startsWithB]
    | cons c cs =>
      rw [startsWithB]
      simp only [Bool.and_eq_true, beq_iff_eq, ih]
      constructor
      · rintro ⟨h1, t, ht⟩
        exact ⟨t, by simp [h1, ht]⟩
      · rintro ⟨t, ht⟩
        simp only [List.cons_append] at ht
        injection ht with h1 h2
        exact ⟨h1, t, h2⟩

theorem containsSub_iff (p : List Char) :
    ∀ s : List Char, containsSub p s = true ↔ p <:+: s := by
  intro s
  induction s with
  | nil =>
    rw [containsSub]
    constructor
    · intro h
      have : p = [] := by simpa [List.isEmpty_iff] using h
      exact ⟨[], [], by simp [this]⟩
    · rintro ⟨a, b, hab⟩
      have h1 := List.append_eq_nil.mp hab
      have h2 := List.append_eq_nil.mp h1.1
      simp [List.isEmpty_iff, h2.2]
  | cons c cs ih =>
    rw [containsSub]
    simp only [Bool.or_eq_true, startsWithB_iff, ih]
    constructor
    · rintro (h | h)
      · exact h.isInfix
      · obtain ⟨a, b, hab⟩ := h
        exact ⟨c :: a, b, by simp [hab]⟩
    · intro h
      exact sub_cons_cases h

theorem endsWithB_iff (s p : List Char) : endsWithB s p = true ↔ p <:+ s := by
  rw [endsWithB, startsWithB_iff]
  constructor
  · intro h
    have hd : s.drop (s.length - p.length) <:+ s := List.drop_suffix _ _
    have hl : p.length ≤ s.length := by
      have h1 := h.length_le
      rw [List.length_drop] at h1
      omega
    have hlen : (s.drop (s.length - p.length)).length = p.length := by
      rw [List.length_drop]; omega
    have he : p = s.drop (s.length - p.length) :=
      h.eq_of_length (by rw [hlen])
    rw [he]
    exact List.drop_suffix _ _
  · rintro ⟨t, ht⟩
    have h1 : s.length - p.length = t.length := by
      rw [← ht]; simp
    rw [h1, ← ht, List.drop_left]

/-- A file of the scanned tree.  `path` is relative to the base directory;
`content` is the text obtained by the script's tolerant UTF-8 read;
`readErr` / `writeErr` model an exception raised by `open(...,'r')` /
`open(...,'w')` for this file, carrying the exception's message. -/
structure FileEntry where
  path : List Char
  content : List Char
  readErr : Option (List Char)
  writeErr : Option (List Char)
deriving DecidableEq

/-- `base_dir = Path('/root/github-repos/ghl-agency-ai')` (source line 52). -/
def base_dir : List Char := "/root/github-repos/ghl-agency-ai".toList

/-- The absolute path of an entry, as `str(file_path)` would print it. -/
def fullPath (e : FileEntry) : List Char := base_dir ++ '/' :: e.path

/-- `skip_patterns` (source lines 12-21). -/
def skip_patterns : List (List Char) :=
  ["node_modules".toList, ".git".toList, "package-lock.json".toList,
   ".pyc".toList, "__pycache__".toList, "dist".toList, "build".toList,
   ".cache".toList]

/-- `should_skip` (source lines 10-22): any skip pattern occurs as a
substring of the path's string form. -/
def should_skip (path : List Char) : Bool :=
  skip_patterns.any (fun pat => containsSub pat path)

/-- `extensions` (source lines 55-59). -/
def extensions : List (List Char) :=
  [".md".toList, ".txt".toList, ".ts".toList, ".tsx".toList, ".js".toList,
   ".jsx".toList, ".yaml".toList, ".yml".toList, ".json".toList,
   ".py".toList, ".sh".toList, ".tpl".toList, ".html".toList, ".css".toList]

/-- The message printed by `except` (source line 48):
`f"Error processing {file_path}: {e}"`. -/
def errMsg (e : FileEntry) (m : List Char) : List Char :=
  "Error processing ".toList ++ fullPath e ++ ": ".toList ++ m

/-- `rebrand_file` (source lines 24-49): read, transform, compare, and
conditionally write back; any exception is caught, logged, and turns into
`False`.  Returns the entry as left on disk, the `True`/`False` result,
and the lines printed by the `except` branch. -/
def rebrand_file (e : FileEntry) : FileEntry × Bool × List (List Char) :=
  match e.readErr with
  | some m => (e, false, [errMsg e m])
  | none =>
    let content := rebrand_content e.content
    if content ≠ e.content then
      match e.writeErr with
      | some m => (e, false, [errMsg e m])
      | none => ({ e with content := content }, true, [])
    else
      (e, false, [])

/-- The loop-body guard of `main` (source lines 64-66): the file was
yielded by `rglob(f'*{ext}')` and not skipped. -/
def visits (ext : List Char) (e : FileEntry) : Bool :=
  endsWithB e.path ext && !should_skip (fullPath e)

/-- One iteration of the inner loop of `main` for one file: skipped files
are untouched and never opened. -/
def passEntry (ext : List Char) (e : FileEntry) :
    FileEntry × Bool × List (List Char) × Bool :=
  if visits ext e then
    let r := rebrand_file e
    (r.1, r.2.1, r.2.2, true)
  else
    (e, false, [], false)

/-- Observable outcome of a run: the tree as left on disk, the collected
`files_updated` (relative paths, in append order), the error lines
printed, and the absolute paths of the files that were opened. -/
structure RunOut where
  fs : List FileEntry
  updated : List (List Char)
  log : List (List Char)
  opened : List (List Char)
deriving DecidableEq

/-- The inner loop of `main` for a fixed extension, over the whole tree. -/
def runPass (ext : List Char) : List FileEntry → RunOut
  | [] => ⟨[], [], [], []⟩
  | e :: rest =>
    let r := passEntry ext e
    let R := runPass ext rest
    ⟨r.1 :: R.fs,
     (if r.2.1 then [e.path] else []) ++ R.updated,
     r.2.2.1 ++ R.log,
     (if r.2.2.2 then [fullPath e] else []) ++ R.opened⟩

/-- The outer loop of `main` (source lines 63-69): one pass per extension,
each pass acting on the tree left by the previous one. -/
def runExts : List (List Char) → List FileEntry → RunOut
  | [], fs => ⟨fs, [], [], []⟩
  | ext :: rest, fs =>
    let P := runPass ext fs
    let R := runExts rest P.fs
    ⟨R.fs, P.updated ++ R.updated, P.log ++ R.log, P.opened ++ R.opened⟩

/-- The whole scan of `main`. -/
def run (fs : List FileEntry) : RunOut := runExts extensions fs

/-- The fate of one fixed entry across a sequence of passes. -/
def passFold : List (List Char) → FileEntry → FileEntry
  | [], e => e
  | ext :: rest, e => passFold rest (passEntry ext e).1

theorem rebrand_file_read_err (e : FileEntry) (m : List Char)
    (h : e.readErr = some m) :
    rebrand_file e = (e, false, [errMsg e m]) := by
  simp [rebrand_file, h]

theorem rebrand_file_write_err (e : FileEntry) (m : List Char)
    (hr : e.readErr = none) (hw : e.writeErr = some m)
    (hch : rebrand_content e.content ≠ e.content) :
    rebrand_file e = (e, false, [errMsg e m]) := by
  simp [rebrand_file, hr, hw, hch]

theorem rebrand_file_unchanged (e : FileEntry) (hr : e.readErr = none)
    (hch : rebrand_content e.content = e.content) :
    rebrand_file e = (e, false, []) := by
  simp [rebrand_file, hr, hch]

theorem rebrand_file_write (e : FileEntry) (hr : e.readErr = none)
    (hw : e.writeErr = none) (hch : rebrand_content e.content ≠ e.content) :
    rebrand_file e = ({ e with content := rebrand_content e.content }, true, []) := by
  simp [rebrand_file, hr, hw, hch]

theorem rebrand_file_false_fix (e : FileEntry)
    (h : (rebrand_file e).2.1 = false) : (rebrand_file e).1 = e := by
  cases hre : e.readErr with
  | some m => rw [rebrand_file_read_err e m hre]
  | none =>
    by_cases hch : rebrand_content e.content = e.content
    · rw [rebrand_file_unchanged e hre hch]
    · cases hwe : e.writeErr with
      | some m => rw [rebrand_file_write_err e m hre hwe hch]
      | none =>
        rw [rebrand_file_write e hre hwe hch] at h
        exact absurd h (by simp)

theorem passEntry_not_visit (ext : List Char) (e : FileEntry)
    (h : visits ext e = false) : passEntry ext e = (e, false, [], false) := by
  simp [passEntry, h]

theorem passEntry_visit (ext : List Char) (e : FileEntry)
    (h : visits ext e = true) :
    passEntry ext e =
      ((rebrand_file e).1, (rebrand_file e).2.1, (rebrand_file e).2.2, true) := by
  simp [passEntry, h]

theorem passEntry_false_fix (ext : List Char) (e : FileEntry)
    (h : (passEntry ext e).2.1 = false) : (passEntry ext e).1 = e := by
  by_cases hv : visits ext e = true
  · rw [passEntry_visit ext e hv] at h ⊢
    exact rebrand_file_false_fix e h
  · rw [passEntry_not_visit ext e (by simpa using hv)]

theorem rebrand_file_keeps (e : FileEntry) :
    (rebrand_file e).1.path = e.path ∧
    (rebrand_file e).1.readErr = e.readErr ∧
    (rebrand_file e).1.writeErr = e.writeErr := by
  cases hre : e.readErr with
  | some m => rw [rebrand_file_read_err e m hre]; exact ⟨rfl, hre, rfl⟩
  | none =>
    by_cases hch : rebrand_content e.content = e.content
    · rw [rebrand_file_unchanged e hre hch]; exact ⟨rfl, hre, rfl⟩
    · cases hwe : e.writeErr with
      | some m =>
        rw [rebrand_file_write_err e m hre hwe hch]
        exact ⟨rfl, hre, hwe⟩
      | none =>
        rw [rebrand_file_write e hre hwe hch]
        exact ⟨rfl, hre, hwe⟩

theorem passEntry_keeps (ext : List Char) (e : FileEntry) :
    (passEntry ext e).1.path = e.path ∧
    (passEntry ext e).1.readErr = e.readErr ∧
    (passEntry ext e).1.writeErr = e.writeErr := by
  by_cases hv : visits ext e = true
  · rw [passEntry_visit ext e hv]; exact rebrand_file_keeps e
  · rw [passEntry_not_visit ext e (by simpa using hv)]; exact ⟨rfl, rfl, rfl⟩

theorem passEntry_opened (ext : List Char) (e : FileEntry) :
    (passEntry ext e).2.2.2 = visits ext e := by
  by_cases hv : visits ext e = true
  · rw [passEntry_visit ext e hv, hv]
  · rw [passEntry_not_visit ext e (by simpa using hv)]
    simpa using (by simpa using hv : visits ext e = false).symm

theorem passEntry_content (ext : List Char) (e : FileEntry)
    (hr : e.readErr = none) (hw : e.writeErr = none)
    (hv : visits ext e = true) :
    (passEntry ext e).1 = { e with content := rebrand_content e.content } := by
  rw [passEntry_visit ext e hv]
  by_cases hch : rebrand_content e.content = e.content
  · rw [rebrand_file_unchanged e hr hch]
    rw [hch]
  · rw [rebrand_file_write e hr hw hch]

theorem runPass_fs (ext : List Char) :
    ∀ fs : List FileEntry,
      (runPass ext fs).fs = fs.map (fun e => (passEntry ext e).1) := by
  intro fs
  induction fs with
  | nil => rfl
  | cons e rest ih => simp [runPass, ih]

theorem runPass_append (ext : List Char) (xs ys : List FileEntry) :
    (runPass ext (xs ++ ys)).fs = (runPass ext xs).fs ++ (runPass ext ys).fs ∧
    (runPass ext (xs ++ ys)).updated =
      (runPass ext xs).updated ++ (runPass ext ys).updated ∧
    (runPass ext (xs ++ ys)).log = (runPass ext xs).log ++ (runPass ext ys).log ∧
    (runPass ext (xs ++ ys)).opened =
      (runPass ext xs).opened ++ (runPass ext ys).opened := by
  induction xs with
  | nil => simp [runPass]
  | cons e rest ih =>
    obtain ⟨h1, h2, h3, h4⟩ := ih
    refine ⟨?_, ?_, ?_, ?_⟩ <;>
      simp [runPass, h1, h2, h3, h4]

theorem runPass_updated_sub (ext : List Char) :
    ∀ (fs : List FileEntry) (q : List Char), q ∈ (runPass ext fs).updated →
      ∃ e ∈ fs, q = e.path ∧ (passEntry ext e).2.1 = true := by
  intro fs
  induction fs with
  | nil => intro q h; simp [runPass] at h
  | cons e rest ih =>
    intro q h
    simp only [runPass, List.mem_append] at h
    rcases h with h | h
    · by_cases hu : (passEntry ext e).2.1 = true
      · rw [if_pos hu] at h
        simp at h
        exact ⟨e, List.mem_cons_self _ _, h, hu⟩
      · rw [if_neg hu] at h
        simp at h
    · obtain ⟨x, hx1, hx2⟩ := ih q h
      exact ⟨x, List.mem_cons_of_mem _ hx1, hx2⟩

theorem runPass_opened_sub (ext : List Char) :
    ∀ (fs : List FileEntry) (q : List Char), q ∈ (runPass ext fs).opened →
      ∃ e ∈ fs, q = fullPath e ∧ visits ext e = true := by
  intro fs
  induction fs with
  | nil => intro q h; simp [runPass] at h
  | cons e rest ih =>
    intro q h
    simp only [runPass, List.mem_append] at h
    rcases h with h | h
    · by_cases hop : (passEntry ext e).2.2.2 = true
      · rw [if_pos hop] at h
        simp at h
        exact ⟨e, List.mem_cons_self _ _, h, by rw [← passEntry_opened]; exact hop⟩
      · rw [if_neg hop] at h
        simp at h
    · obtain ⟨x, hx1, hx2⟩ := ih q h
      exact ⟨x, List.mem_cons_of_mem _ hx1, hx2⟩

theorem runPass_updated_nil (ext : List Char) :
    ∀ fs : List FileEntry, (∀ e ∈ fs, (passEntry ext e).2.1 = false) →
      (runPass ext fs).updated = [] := by
  intro fs
  induction fs with
  | nil => intro _; rfl
  | cons e rest ih =>
    intro h
    have he := h e (List.mem_cons_self _ _)
    simp only [runPass]
    rw [if_neg (by simp [he])]
    simpa using ih fun x hx => h x (List.mem_cons_of_mem _ hx)

theorem runPass_fix (ext : List Char) (fs : List FileEntry)
    (h : ∀ e ∈ fs, (passEntry ext e).1 = e) : (runPass ext fs).fs = fs := by
  rw [runPass_fs]
  exact List.map_congr_left h |>.trans (List.map_id _)

theorem runExts_fs :
    ∀ (E : List (List Char)) (fs : List FileEntry),
      (runExts E fs).fs = fs.map (passFold E) := by
  intro E
  induction E with
  | nil =>
    intro fs
    have h : fs.map (passFold []) = fs.map id := List.map_congr_left fun e _ => rfl
    rw [h, List.map_id]
    rfl
  | cons ext rest ih =>
    intro fs
    simp only [runExts]
    rw [ih, runPass_fs, List.map_map]
    exact List.map_congr_left fun e _ => rfl

theorem passFold_fix (E : List (List Char)) (e : FileEntry)
    (h : ∀ ext, (passEntry ext e).1 = e) : passFold E e = e := by
  induction E with
  | nil => rfl
  | cons ext rest ih =>
    show passFold rest (passEntry ext e).1 = e
    rw [h ext]
    exact ih

theorem passEntry_fix_rerr (ext : List Char) (e : FileEntry) (m : List Char)
    (h : e.readErr = some m) :
    (passEntry ext e).1 = e ∧ (passEntry ext e).2.1 = false := by
  by_cases hv : visits ext e = true
  · rw [passEntry_visit ext e hv, rebrand_file_read_err e m h]
    exact ⟨rfl, rfl⟩
  · rw [passEntry_not_visit ext e (by simpa using hv)]
    exact ⟨rfl, rfl⟩

theorem passEntry_fix_werr (ext : List Char) (e : FileEntry) (m : List Char)
    (hr : e.readErr = none) (hw : e.writeErr = some m) :
    (passEntry ext e).1 = e ∧ (passEntry ext e).2.1 = false := by
  by_cases hv : visits ext e = true
  · rw [passEntry_visit ext e hv]
    by_cases hch : rebrand_content e.content = e.content
    · rw [rebrand_file_unchanged e hr hch]
      exact ⟨rfl, rfl⟩
    · rw [rebrand_file_write_err e m hr hw hch]
      exact ⟨rfl, rfl⟩
  · rw [passEntry_not_visit ext e (by simpa using hv)]
    exact ⟨rfl, rfl⟩

theorem passEntry_fix_unchanged (ext : List Char) (e : FileEntry)
    (hch : rebrand_content e.content = e.content) :
    (passEntry ext e).1 = e ∧ (passEntry ext e).2.1 = false := by
  by_cases hv : visits ext e = true
  · rw [passEntry_visit ext e hv]
    cases hre : e.readErr with
    | some m =>
      rw [rebrand_file_read_err e m hre]
      exact ⟨rfl, rfl⟩
    | none =>
      rw [rebrand_file_unchanged e hre hch]
      exact ⟨rfl, rfl⟩
  · rw [passEntry_not_visit ext e (by simpa using hv)]
    exact ⟨rfl, rfl⟩

theorem passEntry_err_fix (ext : List Char) (e : FileEntry)
    (h : e.readErr ≠ none ∨ e.writeErr ≠ none) :
    (passEntry ext e).1 = e ∧ (passEntry ext e).2.1 = false := by
  cases hre : e.readErr with
  | some m => exact passEntry_fix_rerr ext e m hre
  | none =>
    rcases h with h | h
    · exact absurd hre h
    · cases hwe : e.writeErr with
      | some m => exact passEntry_fix_werr ext e m hre hwe
      | none => exact absurd hwe h

theorem passFold_content (E : List (List Char)) :
    ∀ e : FileEntry, e.readErr = none → e.writeErr = none →
      passFold E e =
        { e with content :=
            if E.any (fun ext => visits ext e) = true then
              rebrand_content e.content
            else e.content } := by
  induction E with
  | nil =>
    intro e hr hw
    show e = _
    simp
  | cons ext rest ih =>
    intro e hr hw
    show passFold rest (passEntry ext e).1 = _
    by_cases hv : visits ext e = true
    · rw [passEntry_content ext e hr hw hv]
      rw [ih { e with content := rebrand_content e.content } hr hw]
      have hvc : ∀ x : List Char,
          visits x { e with content := rebrand_content e.content } =
            visits x e := fun x => rfl
      by_cases hb : rest.any (fun x => visits x e) = true
      · simp [hvc, List.any_cons, hv, hb, rebrand_idem]
      · simp [hvc, List.any_cons, hv, hb]
    · have hv' : visits ext e = false := by simpa using hv
      rw [passEntry_not_visit ext e hv']
      show passFold rest e = _
      rw [ih e hr hw]
      simp [List.any_cons, hv']

theorem runExts_insert :
    ∀ (E : List (List Char)) (pre post : List FileEntry) (bad : FileEntry),
      (∀ ext, (passEntry ext bad).1 = bad ∧ (passEntry ext bad).2.1 = false) →
      (runExts E (pre ++ bad :: post)).updated =
        (runExts E (pre ++ post)).updated := by
  intro E
  induction E with
  | nil => intro pre post bad _; rfl
  | cons ext rest ih =>
    intro pre post bad h
    simp only [runExts]
    have hbadu : (runPass ext (bad :: post)).updated =
        (runPass ext post).updated := by
      simp only [runPass]
      rw [if_neg (by simp [(h ext).2])]
      simp
    have hbadf : (runPass ext (bad :: post)).fs =
        bad :: (runPass ext post).fs := by
      simp only [runPass]
      rw [(h ext).1]
    have hP : (runPass ext (pre ++ bad :: post)).updated =
        (runPass ext (pre ++ post)).updated := by
      rw [(runPass_append ext pre (bad :: post)).2.1,
        (runPass_append ext pre post).2.1, hbadu]
    have hfs : (runPass ext (pre ++ bad :: post)).fs =
        (runPass ext pre).fs ++ bad :: (runPass ext post).fs := by
      rw [(runPass_append ext pre (bad :: post)).1, hbadf]
    have hfs2 : (runPass ext (pre ++ post)).fs =
        (runPass ext pre).fs ++ (runPass ext post).fs :=
      (runPass_append ext pre post).1
    rw [hP, hfs, hfs2]
    congr 1
    exact ih _ _ bad h

theorem runExts_insert_fs (E : List (List Char)) (pre post : List FileEntry)
    (bad : FileEntry) (hfix : ∀ ext, (passEntry ext bad).1 = bad) :
    (runExts E (pre ++ bad :: post)).fs =
      (runExts E pre).fs ++ bad :: (runExts E post).fs := by
  simp [runExts_fs, passFold_fix E bad hfix]

theorem runExts_opened_sub :
    ∀ (E : List (List Char)) (fs : List FileEntry) (q : List Char),
      q ∈ (runExts E fs).opened →
      ∃ ext ∈ E, ∃ e : FileEntry, q = fullPath e ∧ visits ext e = true := by
  intro E
  induction E with
  | nil => intro fs q h; simp [runExts] at h
  | cons ext rest ih =>
    intro fs q h
    simp only [runExts, List.mem_append] at h
    rcases h with h | h
    · obtain ⟨e, _, he⟩ := runPass_opened_sub ext fs q h
      exact ⟨ext, List.mem_cons_self _ _, e, he⟩
    · obtain ⟨x, hx1, hrest⟩ := ih _ q h
      exact ⟨x, List.mem_cons_of_mem _ hx1, hrest⟩

theorem runPass_log_mem (ext : List Char) :
    ∀ (fs : List FileEntry) (e : FileEntry), e ∈ fs →
      ∀ l ∈ (passEntry ext e).2.2.1, l ∈ (runPass ext fs).log := by
  intro fs
  induction fs with
  | nil => intro e he; simp at he
  | cons x rest ih =>
    intro e he l hl
    simp only [runPass, List.mem_append]
    rcases List.mem_cons.mp he with rfl | he'
    · exact Or.inl hl
    · exact Or.inr (ih e he' l hl)

theorem runExts_log_mem :
    ∀ (E : List (List Char)) (fs : List FileEntry) (e : FileEntry),
      e ∈ fs → (∀ ext, (passEntry ext e).1 = e) →
      ∀ x ∈ E, ∀ l ∈ (passEntry x e).2.2.1, l ∈ (runExts E fs).log := by
  intro E
  induction E with
  | nil => intro fs e _ _ x hx; simp at hx
  | cons ext rest ih =>
    intro fs e he hfix x hx l hl
    simp only [runExts, List.mem_append]
    rcases List.mem_cons.mp hx with rfl | hx'
    · exact Or.inl (runPass_log_mem x fs e he l hl)
    · refine Or.inr (ih _ e ?_ hfix x hx' l hl)
      rw [runPass_fs]
      have : e = (passEntry ext e).1 := (hfix ext).symm
      exact this ▸ List.mem_map_of_mem _ he

theorem passEntry_log_rerr (ext : List Char) (e : FileEntry) (m : List Char)
    (hv : visits ext e = true) (h : e.readErr = some m) :
    (passEntry ext e).2.2.1 = [errMsg e m] := by
  rw [passEntry_visit ext e hv, rebrand_file_read_err e m h]

theorem runExts_noupdates :
    ∀ (E : List (List Char)) (fs : List FileEntry),
      (∀ e ∈ fs, ∀ ext ∈ E, (passEntry ext e).2.1 = false) →
      (runExts E fs).updated = [] ∧ (runExts E fs).fs = fs := by
  intro E
  induction E with
  | nil => intro fs _; exact ⟨rfl, rfl⟩
  | cons ext rest ih =>
    intro fs h
    have h1 : ∀ e ∈ fs, (passEntry ext e).2.1 = false := fun e he =>
      h e he ext (List.mem_cons_self _ _)
    have hfsfix : (runPass ext fs).fs = fs :=
      runPass_fix ext fs fun e he => passEntry_false_fix ext e (h1 e he)
    have hupd : (runPass ext fs).updated = [] := runPass_updated_nil ext fs h1
    have hrest := ih fs fun e he x hx => h e he x (List.mem_cons_of_mem _ hx)
    constructor
    · show (runPass ext fs).updated ++ (runExts rest (runPass ext fs).fs).updated = []
      rw [hupd, hfsfix, hrest.1]
      rfl
    · show (runExts rest (runPass ext fs).fs).fs = fs
      rw [hfsfix, hrest.2]

theorem visits_update (x : List Char) (e : FileEntry) (c : List Char) :
    visits x { e with content := c } = visits x e := rfl

theorem passFold_second (E : List (List Char)) (e : FileEntry) (x : List Char)
    (hx : x ∈ E) : (passEntry x (passFold E e)).2.1 = false := by
  cases hre : e.readErr with
  | some m =>
    have hfix : passFold E e = e :=
      passFold_fix E e fun ext => (passEntry_fix_rerr ext e m hre).1
    rw [hfix]
    exact (passEntry_fix_rerr x e m hre).2
  | none =>
    cases hwe : e.writeErr with
    | some m =>
      have hfix : passFold E e = e :=
        passFold_fix E e fun ext => (passEntry_fix_werr ext e m hre hwe).1
      rw [hfix]
      exact (passEntry_fix_werr x e m hre hwe).2
    | none =>
      rw [passFold_content E e hre hwe]
      by_cases hv : visits x e = true
      · have hany : E.any (fun ext => visits ext e) = true :=
          List.any_eq_true.mpr ⟨x, hx, hv⟩
        rw [if_pos hany]
        exact (passEntry_fix_unchanged x _ (rebrand_idem e.content)).2
      · have hv2 : visits x
            { e with content :=
                if E.any (fun ext => visits ext e) = true then
                  rebrand_content e.content
                else e.content } = false := by
          rw [visits_update]
          simpa using hv
        rw [passEntry_not_visit x _ hv2]

/-- A second run of the whole scan reports no updated file and leaves the
tree exactly as the first run left it. -/
theorem run_twice (fs : List FileEntry) :
    (run ((run fs).fs)).updated = [] ∧ (run ((run fs).fs)).fs = (run fs).fs := by
  apply runExts_noupdates
  intro e' he' x hx
  rw [run, runExts_fs] at he'
  obtain ⟨e, _, rfl⟩ := List.mem_map.mp he'
  exact passFold_second extensions e x hx

theorem fullPath_inj {a b : FileEntry} (h : fullPath a = fullPath b) :
    a.path = b.path := by
  have h2 : '/' :: a.path = '/' :: b.path := by
    have := h
    rw [fullPath, fullPath] at this
    exact List.append_cancel_left this
  injection h2

/-- Python string comparison: lexicographic on code points, a proper
initial segment comparing as smaller. -/
def pathLeB : List Char → List Char → Bool
  | [], _ => true
  | _ :: _, [] => false
  | a :: as, b :: bs =>
    if a.toNat < b.toNat then true
    else if b.toNat < a.toNat then false
    else pathLeB as bs

theorem pathLeB_cons (a b : Char) (as bs : List Char) :
    pathLeB (a :: as) (b :: bs) =
      if a.toNat < b.toNat then true
      else if b.toNat < a.toNat then false
      else pathLeB as bs := rfl

theorem pathLeB_head {a b : Char} {as bs : List Char}
    (h : pathLeB (a :: as) (b :: bs) = true) :
    a.toNat < b.toNat ∨ (a.toNat = b.toNat ∧ pathLeB as bs = true) := by
  by_cases h1 : a.toNat < b.toNat
  · exact Or.inl h1
  · by_cases h2 : b.toNat < a.toNat
    · rw [pathLeB_cons, if_neg h1, if_pos h2] at h
      exact absurd h (by simp)
    · rw [pathLeB_cons, if_neg h1, if_neg h2] at h
      exact Or.inr ⟨by omega, h⟩

theorem pathLeB_of_lt {a b : Char} (as bs : List Char)
    (h : a.toNat < b.toNat) : pathLeB (a :: as) (b :: bs) = true := by
  rw [pathLeB_cons, if_pos h]

theorem pathLeB_of_eq {a b : Char} {as bs : List Char}
    (h : a.toNat = b.toNat) (h2 : pathLeB as bs = true) :
    pathLeB (a :: as) (b :: bs) = true := by
  rw [pathLeB_cons, if_neg (by omega), if_neg (by omega)]
  exact h2

theorem pathLeB_total : ∀ a b : List Char,
    pathLeB a b = true ∨ pathLeB b a = true := by
  intro a
  induction a with
  | nil => intro b; exact Or.inl rfl
  | cons x xs ih =>
    intro b
    cases b with
    | nil => exact Or.inr rfl
    | cons y ys =>
      by_cases h1 : x.toNat < y.toNat
      · exact Or.inl (pathLeB_of_lt xs ys h1)
      · by_cases h2 : y.toNat < x.toNat
        · exact Or.inr (pathLeB_of_lt ys xs h2)
        · rcases ih ys with h3 | h3
          · exact Or.inl (pathLeB_of_eq (by omega) h3)
          · exact Or.inr (pathLeB_of_eq (by omega) h3)

theorem pathLeB_trans : ∀ a b c : List Char,
    pathLeB a b = true → pathLeB b c = true → pathLeB a c = true := by
  intro a
  induction a with
  | nil => intro b c _ _; rfl
  | cons x xs ih =>
    intro b c hab hbc
    cases b with
    | nil => exact absurd hab (by simp [pathLeB])
    | cons y ys =>
      cases c with
      | nil => exact absurd hbc (by simp [pathLeB])
      | cons z zs =>
        rcases pathLeB_head hab with h1 | ⟨h1, h1'⟩ <;>
          rcases pathLeB_head hbc with h2 | ⟨h2, h2'⟩
        · exact pathLeB_of_lt xs zs (by omega)
        · exact pathLeB_of_lt xs zs (by omega)
        · exact pathLeB_of_lt xs zs (by omega)
        · exact pathLeB_of_eq (by omega) (ih ys zs h1' h2')

/-- The ordering used by Python's `sorted(files_updated)`. -/
def pathLe (a b : List Char) : Prop := pathLeB a b = true

instance : DecidableRel pathLe :=
  fun a b => inferInstanceAs (Decidable (pathLeB a b = true))

instance : IsTotal (List Char) pathLe := ⟨pathLeB_total⟩

instance : IsTrans (List Char) pathLe := ⟨fun a b c => pathLeB_trans a b c⟩

/-- The summary printed at the end of `main` (source lines 71-79): the
total count, the first 50 sorted relative paths, and the count of the
remaining ones when more than 50 files were updated. -/
structure Report where
  count : Nat
  shown : List (List Char)
  more : Option Nat
deriving DecidableEq

def report (updated : List (List Char)) : Report :=
  { count := updated.length,
    shown := (List.insertionSort pathLe updated).take 50,
    more := if 50 < updated.length then some (updated.length - 50) else none }

/-- A UTF-8 continuation byte. -/
def isCont (b : Nat) : Bool := decide (128 ≤ b ∧ b ≤ 191)

/-- Allowed second byte of a three-byte sequence (excludes overlong forms
and surrogates). -/
def cont2ok (b b2 : Nat) : Bool :=
  if b = 224 then decide (160 ≤ b2 ∧ b2 ≤ 191)
  else if b = 237 then decide (128 ≤ b2 ∧ b2 ≤ 159)
  else isCont b2

/-- Allowed second byte of a four-byte sequence (excludes overlong forms
and code points above U+10FFFF). -/
def cont4ok (b b2 : Nat) : Bool :=
  if b = 240 then decide (144 ≤ b2 ∧ b2 ≤ 191)
  else if b = 244 then decide (128 ≤ b2 ∧ b2 ≤ 143)
  else isCont b2

/-- UTF-8 decoding with invalid bytes dropped, modelling
`open(..., encoding='utf-8', errors='ignore')` (source line 27).  The
`Nat` argument counts already-consumed continuation bytes still to skip,
keeping the recursion structural. -/
def utf8Go : List Nat → Nat → List Char
  | [], _ => []
  | _ :: bs, Nat.succ n => utf8Go bs n
  | b :: bs, 0 =>
    if b < 128 then Char.ofNat b :: utf8Go bs 0
    else if 194 ≤ b ∧ b ≤ 223 then
      match bs with
      | [] => []
      | b2 :: _ =>
        if isCont b2 then
          Char.ofNat ((b - 192) * 64 + (b2 - 128)) :: utf8Go bs 1
        else utf8Go bs 0
    else if 224 ≤ b ∧ b ≤ 239 then
      match bs with
      | [] => []
      | [b2] => if cont2ok b b2 then [] else utf8Go bs 0
      | b2 :: b3 :: _ =>
        if cont2ok b b2 then
          if isCont b3 then
            Char.ofNat ((b - 224) * 4096 + (b2 - 128) * 64 + (b3 - 128)) ::
              utf8Go bs 2
          else utf8Go bs 1
        else utf8Go bs 0
    else if 240 ≤ b ∧ b ≤ 244 then
      match bs with
      | [] => []
      | [b2] => if cont4ok b b2 then [] else utf8Go bs 0
      | [b2, b3] =>
        if cont4ok b b2 then
          if isCont b3 then [] else utf8Go bs 1
        else utf8Go bs 0
      | b2 :: b3 :: b4 :: _ =>
        if cont4ok b b2 then
          if isCont b3 then
            if isCont b4 then
              Char.ofNat ((b - 240) * 262144 + (b2 - 128) * 4096 +
                (b3 - 128) * 64 + (b4 - 128)) :: utf8Go bs 3
            else utf8Go bs 2
          else utf8Go bs 1
        else utf8Go bs 0
    else utf8Go bs 0

def utf8Decode (bs : List Nat) : List Char := utf8Go bs 0

/-- UTF-8 encoding of one character, as `open(..., 'w', encoding='utf-8')`
writes it. -/
def utf8EncodeChar (c : Char) : List Nat :=
  let n := c.toNat
  if n < 128 then [n]
  else if n < 2048 then [192 + n / 64, 128 + n % 64]
  else if n < 65536 then [224 + n / 4096, 128 + n / 64 % 64, 128 + n % 64]
  else [240 + n / 262144, 128 + n / 4096 % 64, 128 + n / 64 % 64, 128 + n % 64]

def utf8Encode : List Char → List Nat
  | [] => []
  | c :: cs => utf8EncodeChar c ++ utf8Encode cs

/-- `rebrand_file` at the byte level for an error-free file: decode
tolerantly, transform, and return the bytes written back when the text
changed (source lines 27-28 and 43-44). -/
def rebrand_file_bytes (bs : List Nat) : Option (List Nat) :=
  let content := utf8Decode bs
  let c2 := rebrand_content content
  if c2 ≠ content then some (utf8Encode c2) else none

theorem passFold_fix_mem (E : List (List Char)) (e : FileEntry)
    (h : ∀ ext ∈ E, (passEntry ext e).1 = e) : passFold E e = e := by
  induction E with
  | nil => rfl
  | cons ext rest ih =>
    show passFold rest (passEntry ext e).1 = e
    rw [h ext (List.mem_cons_self _ _)]
    exact ih fun x hx => h x (List.mem_cons_of_mem _ hx)

theorem run_fs_get (fs : List FileEntry) (i : Nat) (h : i < fs.length) :
    ∃ h2 : i < (run fs).fs.length,
      (run fs).fs.get ⟨i, h2⟩ = passFold extensions (fs.get ⟨i, h⟩) := by
  have hlen : (run fs).fs.length = fs.length := by
    rw [run, runExts_fs, List.length_map]
  refine ⟨by omega, ?_⟩
  simp [run, runExts_fs, List.get_eq_getElem, List.getElem_map]

theorem should_skip_iff (p : List Char) :
    should_skip p = true ↔ ∃ pat ∈ skip_patterns, pat <:+: p := by
  simp [should_skip, List.any_eq_true, containsSub_iff]

instance noTargets_decidable (c : List Char) : Decidable (noTargets c) :=
  decidable_of_iff
    (¬ brandPat <:+: c ∧ ¬ slugPat <:+: c ∧
      ¬ domainPat <:+: c.map asciiLower) Iff.rfl

/-- Tree holding one markdown file whose content carries all three target
strings. -/
def fsW1 : List FileEntry :=
  [⟨"README.md".toList,
    "GHL Agency AI at GHL.AGENCY.AI uses ghl-agency-ai".toList, none, none⟩]

/-- C1: for every file under the base directory whose name ends with one of
the fixed extensions and whose path contains no skip pattern (and which the
tool can read and write), after the tool runs the file's content contains
no occurrence of "GHL Agency AI", none of "ghl-agency-ai", and no
case-insensitive occurrence of "ghl.agency.ai". -/
theorem c1_run_removes_targets (fs : List FileEntry) (i : Nat)
    (h : i < fs.length)
    (hext : ∃ ext ∈ extensions, endsWithB (fs.get ⟨i, h⟩).path ext = true)
    (hskip : ¬ ∃ pat ∈ skip_patterns, pat <:+: fullPath (fs.get ⟨i, h⟩))
    (hre : (fs.get ⟨i, h⟩).readErr = none)
    (hwe : (fs.get ⟨i, h⟩).writeErr = none) :
    ∃ h2 : i < (run fs).fs.length,
      noTargets (((run fs).fs.get ⟨i, h2⟩).content) := by
  have hsk : should_skip (fullPath (fs.get ⟨i, h⟩)) = false := by
    cases hb : should_skip (fullPath (fs.get ⟨i, h⟩)) with
    | false => rfl
    | true => exact absurd ((should_skip_iff _).mp hb) hskip
  obtain ⟨h2, hget⟩ := run_fs_get fs i h
  refine ⟨h2, ?_⟩
  rw [hget, passFold_content extensions _ hre hwe]
  have hany : extensions.any (fun ext => visits ext (fs.get ⟨i, h⟩)) = true := by
    obtain ⟨ext, hmem, hend⟩ := hext
    refine List.any_eq_true.mpr ⟨ext, hmem, ?_⟩
    simp only [visits, Bool.and_eq_true, Bool.not_eq_true']
    exact ⟨hend, hsk⟩
  rw [if_pos hany]
  exact rebrand_content_clean _

theorem c1_run_removes_targets_witness :
    ∃ h2 : 0 < (run fsW1).fs.length,
      noTargets (((run fsW1).fs.get ⟨0, h2⟩).content) :=
  c1_run_removes_targets fsW1 0 (by decide) (by decide) (by decide)
    (by decide) (by decide)

/-- C2: the per-file content transformation is idempotent, and hence a
second run of the whole tool reports no updated file and changes no file. -/
theorem c2_idempotent :
    (∀ c : List Char,
      rebrand_content (rebrand_content c) = rebrand_content c) ∧
    ∀ fs : List FileEntry,
      (run ((run fs).fs)).updated = [] ∧ (run ((run fs).fs)).fs = (run fs).fs :=
  ⟨rebrand_idem, run_twice⟩

/-- A file whose read raises an exception. -/
def badRead : FileEntry :=
  ⟨"bad.md".toList, "GHL Agency AI".toList, some "Permission denied".toList,
    none⟩

/-- C3: every error while reading or writing a single file is caught inside
`rebrand_file`, logged with the offending path and message, leaves the file
unchanged and unreported, and the scan over the other files proceeds
exactly as if the failing file were absent. -/
theorem c3_errors_contained :
    (∀ (e : FileEntry) (m : List Char), e.readErr = some m →
      rebrand_file e = (e, false, [errMsg e m])) ∧
    (∀ (e : FileEntry) (m : List Char), e.readErr = none →
      e.writeErr = some m → rebrand_content e.content ≠ e.content →
      rebrand_file e = (e, false, [errMsg e m])) ∧
    (∀ (pre post : List FileEntry) (bad : FileEntry),
      bad.readErr ≠ none ∨ bad.writeErr ≠ none →
      (run (pre ++ bad :: post)).updated = (run (pre ++ post)).updated ∧
      (run (pre ++ bad :: post)).fs = (run pre).fs ++ bad :: (run post).fs) ∧
    (∀ (fs : List FileEntry) (e : FileEntry) (m x : List Char),
      e ∈ fs → x ∈ extensions → visits x e = true → e.readErr = some m →
      errMsg e m ∈ (run fs).log) := by
  refine ⟨rebrand_file_read_err, rebrand_file_write_err, ?_, ?_⟩
  · intro pre post bad hb
    have hfix := fun ext => passEntry_err_fix ext bad hb
    exact ⟨runExts_insert extensions pre post bad hfix,
      runExts_insert_fs extensions pre post bad fun ext => (hfix ext).1⟩
  · intro fs e m x he hx hv hre
    have hfix : ∀ ext, (passEntry ext e).1 = e := fun ext =>
      (passEntry_fix_rerr ext e m hre).1
    have hlog : errMsg e m ∈ (passEntry x e).2.2.1 := by
      rw [passEntry_log_rerr x e m hv hre]
      exact List.mem_cons_self _ _
    exact runExts_log_mem extensions fs e he hfix x hx _ hlog

theorem c3_errors_contained_witness :
    rebrand_file badRead =
      (badRead, false, [errMsg badRead "Permission denied".toList]) :=
  c3_errors_contained.1 badRead "Permission denied".toList rfl

/-- Tree holding one skipped file whose content carries a target string. -/
def fsW4 : List FileEntry :=
  [⟨"node_modules/pkg/readme.md".toList, "ghl-agency-ai".toList, none, none⟩]

/-- C4: a file whose path contains a skip pattern is never opened and never
modified, even if its content contains target strings; the skip check
precedes any read. -/
theorem c4_skip_never_opened (fs : List FileEntry) (i : Nat)
    (h : i < fs.length)
    (hskip : ∃ pat ∈ skip_patterns, pat <:+: fullPath (fs.get ⟨i, h⟩)) :
    fullPath (fs.get ⟨i, h⟩) ∉ (run fs).opened ∧
    ∃ h2 : i < (run fs).fs.length,
      (run fs).fs.get ⟨i, h2⟩ = fs.get ⟨i, h⟩ := by
  have hsk : should_skip (fullPath (fs.get ⟨i, h⟩)) = true :=
    (should_skip_iff _).mpr hskip
  constructor
  · intro hmem
    obtain ⟨ext, _, e, heq, hv⟩ := runExts_opened_sub extensions fs _ hmem
    have hns : should_skip (fullPath e) = false := by
      simp only [visits, Bool.and_eq_true, Bool.not_eq_true'] at hv
      exact hv.2
    rw [← heq, hsk] at hns
    exact Bool.noConfusion hns
  · have hfix : ∀ ext ∈ extensions,
        (passEntry ext (fs.get ⟨i, h⟩)).1 = fs.get ⟨i, h⟩ := by
      intro ext _
      rw [passEntry_not_visit ext _ (by rw [visits, hsk]; simp)]
    obtain ⟨h2, hget⟩ := run_fs_get fs i h
    exact ⟨h2, by rw [hget, passFold_fix_mem extensions _ hfix]⟩

theorem c4_skip_never_opened_witness :
    fullPath (fsW4.get ⟨0, by decide⟩) ∉ (run fsW4).opened ∧
    ∃ h2 : 0 < (run fsW4).fs.length,
      (run fsW4).fs.get ⟨0, h2⟩ = fsW4.get ⟨0, by decide⟩ :=
  c4_skip_never_opened fsW4 0 (by decide) (by decide)

/-- A clean text file containing none of the target strings. -/
def cleanFile : FileEntry :=
  ⟨"notes.md".toList, "hello world, nothing to see".toList, none, none⟩

/-- C5: a file whose content contains none of the target strings is a
fixed point of the transformation, is not written (`rebrand_file` returns
`False`), stays byte-for-byte identical on disk, and adds nothing to the
updated-file report. -/
theorem c5_clean_untouched (pre post : List FileEntry) (e : FileEntry)
    (hclean : noTargets e.content) :
    rebrand_content e.content = e.content ∧
    (rebrand_file e).2.1 = false ∧
    (run (pre ++ e :: post)).updated = (run (pre ++ post)).updated ∧
    (run (pre ++ e :: post)).fs = (run pre).fs ++ e :: (run post).fs := by
  have hch : rebrand_content e.content = e.content := rebrand_fixed _ hclean
  have hfix : ∀ ext, (passEntry ext e).1 = e ∧ (passEntry ext e).2.1 = false :=
    fun ext => passEntry_fix_unchanged ext e hch
  have hflag : (rebrand_file e).2.1 = false := by
    cases hre : e.readErr with
    | some m => rw [rebrand_file_read_err e m hre]
    | none => rw [rebrand_file_unchanged e hre hch]
  exact ⟨hch, hflag, runExts_insert extensions pre post e hfix,
    runExts_insert_fs extensions pre post e fun ext => (hfix ext).1⟩

theorem c5_clean_untouched_witness :
    rebrand_content cleanFile.content = cleanFile.content ∧
    (rebrand_file cleanFile).2.1 = false ∧
    (run ([] ++ cleanFile :: [])).updated = (run ([] ++ [])).updated ∧
    (run ([] ++ cleanFile :: [])).fs =
      (run []).fs ++ cleanFile :: (run []).fs :=
  c5_clean_untouched [] [] cleanFile (by decide)

/-- C6: the three replacement rules apply in a fixed sequence, each on the
output of the previous one; every casing variant of the domain is
normalized to `bottleneckbots.com`; and the literal and pattern rules do
not interfere, as on the spec's examples. -/
theorem c6_rule_order :
    (∀ c : List Char,
      rebrand_content c =
        replaceAllCI domainPat "bottleneckbots.com".toList
          (replaceAll slugPat "bottleneck-bots".toList
            (replaceAll brandPat "Bottleneck Bots".toList c))) ∧
    (∀ v : List Char, v.map asciiLower = domainPat →
      rebrand_content v = "bottleneckbots.com".toList) ∧
    rebrand_content "name: ghl-agency-ai-service".toList =
      "name: bottleneck-bots-service".toList ∧
    rebrand_content "Visit GHL.Agency.AI today".toList =
      "Visit bottleneckbots.com today".toList ∧
    rebrand_content "ghl-agency-ai and GHL.Agency.AI".toList =
      "bottleneck-bots and bottleneckbots.com".toList := by
  refine ⟨fun c => rfl, ?_, by decide, by decide, by decide⟩
  intro v hv
  have hlen : v.length = 13 := by
    have h1 := congrArg List.length hv
    rw [List.length_map] at h1
    rw [h1]
    decide
  have hnb : ¬ brandPat <:+: v := by
    intro hh
    have hsp : ' ' ∈ v := hh.subset (by decide : ' ' ∈ brandPat)
    have h2 : asciiLower ' ' ∈ v.map asciiLower := List.mem_map_of_mem _ hsp
    rw [hv] at h2
    exact absurd h2 (by decide)
  have hns : ¬ slugPat <:+: v := by
    intro hh
    have hsp : '-' ∈ v := hh.subset (by decide : '-' ∈ slugPat)
    have h2 : asciiLower '-' ∈ v.map asciiLower := List.mem_map_of_mem _ hsp
    rw [hv] at h2
    exact absurd h2 (by decide)
  have e1 : replaceAll brandPat "Bottleneck Bots".toList v = v := by
    rw [r1_eq]
    exact id_of_absent id 'G' "HL Agency AI".toList _ v
      (by rw [List.map_id, ← brand_cons]; exact hnb)
  have e2 : replaceAll slugPat "bottleneck-bots".toList v = v := by
    rw [r2_eq]
    exact id_of_absent id 'g' "hl-agency-ai".toList _ v
      (by rw [List.map_id, ← slug_cons]; exact hns)
  show replaceAllCI domainPat "bottleneckbots.com".toList
    (replaceAll slugPat "bottleneck-bots".toList
      (replaceAll brandPat "Bottleneck Bots".toList v)) = _
  rw [e1, e2, r3_eq]
  cases v with
  | nil => exact absurd hlen (by simp)
  | cons c cs =>
    have hcs : cs.length = 12 := by simpa using hlen
    have hm : ((c :: cs).take ("hl.agency.ai".toList.length + 1)).map
        asciiLower = 'g' :: "hl.agency.ai".toList := by
      have h13 : "hl.agency.ai".toList.length + 1 = 13 := by decide
      rw [h13, List.take_of_length_le (le_of_eq hlen), ← domain_cons]
      exact hv
    rw [replaceCore_cons_match asciiLower 'g' _ _ c cs hm]
    have hdrop : cs.drop ("hl.agency.ai".toList.length) = [] := by
      apply List.drop_eq_nil_of_le
      rw [hcs]
      decide
    rw [hdrop, replaceCore_nil, List.append_nil]
    decide

theorem c6_rule_order_witness :
    rebrand_content "GHL.AGENCY.AI".toList = "bottleneckbots.com".toList :=
  c6_rule_order.2.1 "GHL.AGENCY.AI".toList (by decide)

/-- A file with an extension outside the fixed set, target strings inside. -/
def fsW7 : List FileEntry :=
  [⟨"logo.png".toList, "GHL Agency AI".toList, none, none⟩]

/-- C7: a file whose name ends with none of the fixed extensions is never
visited (opened) nor modified, regardless of its content. -/
theorem c7_other_ext_untouched (fs : List FileEntry) (i : Nat)
    (h : i < fs.length)
    (hext : ∀ ext ∈ extensions, ¬ ext <:+ (fs.get ⟨i, h⟩).path) :
    fullPath (fs.get ⟨i, h⟩) ∉ (run fs).opened ∧
    ∃ h2 : i < (run fs).fs.length,
      (run fs).fs.get ⟨i, h2⟩ = fs.get ⟨i, h⟩ := by
  have hend : ∀ ext ∈ extensions,
      endsWithB (fs.get ⟨i, h⟩).path ext = false := by
    intro ext hx
    cases hb : endsWithB (fs.get ⟨i, h⟩).path ext with
    | false => rfl
    | true => exact absurd ((endsWithB_iff _ _).mp hb) (hext ext hx)
  constructor
  · intro hmem
    obtain ⟨ext, hx, e, heq, hv⟩ := runExts_opened_sub extensions fs _ hmem
    have hv1 : endsWithB e.path ext = true := by
      simp only [visits, Bool.and_eq_true] at hv
      exact hv.1
    have hpe : (fs.get ⟨i, h⟩).path = e.path := fullPath_inj heq
    have hf := hend ext hx
    rw [hpe] at hf
    exact Bool.noConfusion (hf.symm.trans hv1)
  · have hfix : ∀ ext ∈ extensions,
        (passEntry ext (fs.get ⟨i, h⟩)).1 = fs.get ⟨i, h⟩ := by
      intro ext hx
      rw [passEntry_not_visit ext _ (by rw [visits, hend ext hx]; simp)]
    obtain ⟨h2, hget⟩ := run_fs_get fs i h
    exact ⟨h2, by rw [hget, passFold_fix_mem extensions _ hfix]⟩

theorem c7_other_ext_untouched_witness :
    fullPath (fsW7.get ⟨0, by decide⟩) ∉ (run fsW7).opened ∧
    ∃ h2 : 0 < (run fsW7).fs.length,
      (run fsW7).fs.get ⟨0, h2⟩ = fsW7.get ⟨0, by decide⟩ :=
  c7_other_ext_untouched fsW7 0 (by decide) (by decide)

/-- C8: the report carries the total count of updated files, shows at most
the first 50 updated relative paths in sorted order, and counts the
remainder when more than 50 were updated; the underlying collected list is
the full, uncapped `files_updated`. -/
theorem c8_report_shape (fs : List FileEntry) :
    (report ((run fs).updated)).count = (run fs).updated.length ∧
    (report ((run fs).updated)).shown =
      (List.insertionSort pathLe ((run fs).updated)).take 50 ∧
    List.Sorted pathLe (report ((run fs).updated)).shown ∧
    List.Perm (List.insertionSort pathLe ((run fs).updated))
      ((run fs).updated) ∧
    (report ((run fs).updated)).more =
      (if 50 < (run fs).updated.length then
        some ((run fs).updated.length - 50) else none) ∧
    (report ((run fs).updated)).shown.length ≤ 50 := by
  refine ⟨rfl, rfl, ?_, List.perm_insertionSort _ _, rfl, ?_⟩
  · exact List.Pairwise.sublist (List.take_sublist _ _)
      (List.sorted_insertionSort pathLe _)
  · show (List.take 50 _).length ≤ 50
    rw [List.length_take]
    omega

/-- Two files with identical content and I/O behaviour, but different
paths. -/
def twinA : FileEntry := ⟨"a.md".toList, "ghl-agency-ai v2".toList, none, none⟩

def twinB : FileEntry :=
  ⟨"deep/dir/b.txt".toList, "ghl-agency-ai v2".toList, none, none⟩

/-- C9: the per-file transformation is a deterministic pure function of the
decoded text: entries with identical content (and identical I/O behaviour)
yield identical new content and the same changed decision, independent of
their path; and each file's outcome is independent of every other file in
the tree. -/
theorem c9_pure_per_file :
    (∀ a b : FileEntry, a.content = b.content → a.readErr = b.readErr →
      a.writeErr = b.writeErr →
      (rebrand_file a).1.content = (rebrand_file b).1.content ∧
      (rebrand_file a).2.1 = (rebrand_file b).2.1) ∧
    ∀ (E : List (List Char)) (fs : List FileEntry),
      (runExts E fs).fs = fs.map (passFold E) := by
  refine ⟨?_, runExts_fs⟩
  intro a b hc hr hw
  cases hra : a.readErr with
  | some m =>
    have hrb : b.readErr = some m := by rw [← hr]; exact hra
    rw [rebrand_file_read_err a m hra, rebrand_file_read_err b m hrb]
    exact ⟨hc, rfl⟩
  | none =>
    have hrb : b.readErr = none := by rw [← hr]; exact hra
    by_cases hch : rebrand_content a.content = a.content
    · have hchb : rebrand_content b.content = b.content := by
        rw [← hc]; exact hch
      rw [rebrand_file_unchanged a hra hch, rebrand_file_unchanged b hrb hchb]
      exact ⟨hc, rfl⟩
    · have hchb : ¬ rebrand_content b.content = b.content := by
        rw [← hc]; exact hch
      cases hwa : a.writeErr with
      | some m =>
        have hwb : b.writeErr = some m := by rw [← hw]; exact hwa
        rw [rebrand_file_write_err a m hra hwa hch,
          rebrand_file_write_err b m hrb hwb hchb]
        exact ⟨hc, rfl⟩
      | none =>
        have hwb : b.writeErr = none := by rw [← hw]; exact hwa
        rw [rebrand_file_write a hra hwa hch,
          rebrand_file_write b hrb hwb hchb]
        refine ⟨?_, rfl⟩
        show rebrand_content a.content = rebrand_content b.content
        rw [hc]

theorem c9_pure_per_file_witness :
    (rebrand_file twinA).1.content = (rebrand_file twinB).1.content ∧
    (rebrand_file twinA).2.1 = (rebrand_file twinB).2.1 :=
  c9_pure_per_file.1 twinA twinB rfl rfl rfl

/-- Bytes of a file holding a slug occurrence and one byte (0xFF) that is
not valid UTF-8. -/
def c10bytes : List Nat :=
  utf8Encode "say ".toList ++ 255 :: utf8Encode "ghl-agency-ai".toList

/-- C10: when a changed file is rewritten, the bytes written are exactly
the UTF-8 encoding of the transformed, bytes-ignored decoding of the
original, so undecodable bytes are silently dropped: on `c10bytes` the
0xFF byte present in the input is gone from the output. -/
theorem c10_undecodable_dropped :
    (∀ bs out : List Nat, rebrand_file_bytes bs = some out →
      out = utf8Encode (rebrand_content (utf8Decode bs))) ∧
    255 ∈ c10bytes ∧
    utf8Decode c10bytes = "say ghl-agency-ai".toList ∧
    rebrand_file_bytes c10bytes =
      some (utf8Encode "say bottleneck-bots".toList) ∧
    255 ∉ utf8Encode "say bottleneck-bots".toList := by
  refine ⟨?_, by decide, by decide, by decide, by decide⟩
  intro bs out h
  by_cases hch : rebrand_content (utf8Decode bs) ≠ utf8Decode bs
  · rw [show rebrand_file_bytes bs =
        (if rebrand_content (utf8Decode bs) ≠ utf8Decode bs then
          some (utf8Encode (rebrand_content (utf8Decode bs)))
        else none) from rfl, if_pos hch] at h
    exact (Option.some_injective _ h).symm
  · rw [show rebrand_file_bytes bs =
        (if rebrand_content (utf8Decode bs) ≠ utf8Decode bs then
          some (utf8Encode (rebrand_content (utf8Decode bs)))
        else none) from rfl, if_neg hch] at h
    exact absurd h (by simp)

theorem c10_undecodable_dropped_witness :
    utf8Encode "say bottleneck-bots".toList =
      utf8Encode (rebrand_content (utf8Decode c10bytes)) :=
  c10_undecodable_dropped.1 c10bytes
    (utf8Encode "say bottleneck-bots".toList) (by decide)

end Rebrand
